import Mathlib

/-!
Verification of the LLM-Reviewer pipeline (`src/main.py`) against its
natural-language specification.

The Python functions are shallowly embedded as Lean functions:

* a raw change record (a Python dict coming from the GitHub API) becomes the
  structure `FileRec`, whose `filename` and `patch` fields are `Option String`
  (`none` models a missing key, so that a subscript access `file['patch']`
  on a record without that key is modelled as a raised `KeyError`);
* code that can raise is modelled in `Except String`; a `try/except` block
  that returns a fallback value becomes a `match` on the `Except` result;
* `asyncio.gather` (with the default `return_exceptions=False`) is modelled
  by `gatherE`, which returns the list of all results or propagates the
  first exception; the requests issued by the tasks are collected separately
  because every task still runs (and issues its request) even when a sibling
  task fails;
* the OpenAI chat-completion call becomes an abstract request executor
  `Request → Except String String`; a `Request` records the model name, the
  messages, the sampling temperature (in tenths, so `3` stands for the float
  literal `0.3`) and the `max_tokens` parameter;
* the tokenizer is an abstract `enc : String → List Nat` (`tiktoken`'s
  `encode`); the measured size of a text is `(enc text).length`, exactly as
  `len(tokenizer.encode(content))` in the source;
* Python string helpers (`str.split('\n')`, `str.strip()`, `str.endswith`,
  `'sep'.join`, `os.path.dirname`, `str(i)`) are re-implemented over
  `List Char` so that every proof can proceed by structural induction
  (`pyStrip` covers the ASCII whitespace that `str.strip()` removes).
-/

namespace PRReview

/-- `MAX_CHUNK_TOKENS` from `main.py`. -/
def MAX_CHUNK_TOKENS : Nat := 6000

/-- `MAX_SUMMARY_TOKENS` from `main.py`. -/
def MAX_SUMMARY_TOKENS : Nat := 3000

/-- `MIN_FILE_TOKENS` from `main.py`. -/
def MIN_FILE_TOKENS : Nat := 200

/-- One raw change record, as produced by the GitHub `files` endpoint and
consumed by `get_pr_diff` / `chunk_files`.  `filename`/`patch` are `Option`
because a record may lack these keys (GitHub omits `patch` for binary files);
`none` models a missing key. -/
structure FileRec where
  filename : Option String := none
  patch : Option String := none
  status : String := "modified"
  changes : Nat := 0
  additions : Nat := 0
  deletions : Nat := 0
deriving DecidableEq, Repr

/-- Python truthiness of an optional string field (`f.get(k)` used as a
boolean): missing key and empty string are falsy. -/
def truthyStr : Option String → Bool
  | some s => s ≠ ""
  | none => false

/-- Python's `'\n'`-splitting (`str.split('\n')`), over characters.
`splitNlChars "" = [[]]`, and a trailing newline yields a final empty
segment, exactly as in Python. -/
def splitNlChars : List Char → List (List Char)
  | [] => [[]]
  | c :: cs =>
    if c = '\n' then [] :: splitNlChars cs
    else
      match splitNlChars cs with
      | [] => [[c]]
      | l :: ls => (c :: l) :: ls

/-- `s.split('\n')` on strings. -/
def splitNl (s : String) : List String :=
  (splitNlChars s.toList).map String.mk

/-- `sep.join(xs)` from Python: empty string on `[]`, no separator around a
single element. -/
def joinSep (sep : String) : List String → String
  | [] => ""
  | [x] => x
  | x :: xs => x ++ sep ++ joinSep sep xs

/-- The ASCII whitespace characters removed by Python's `str.strip()`. -/
def isSpaceChar (c : Char) : Bool :=
  c = ' ' || c = '\t' || c = '\n' || c = '\r' || c = '\x0b' || c = '\x0c'

/-- Python `str.strip()` (ASCII whitespace; the rare non-ASCII whitespace
code points that Python also strips never occur in this pipeline's text). -/
def pyStrip (s : String) : String :=
  String.mk (((s.toList.dropWhile isSpaceChar).reverse.dropWhile isSpaceChar).reverse)

/-- `not s.strip()`: the string is empty or whitespace-only. -/
def isBlank (s : String) : Bool := pyStrip s == ""

/-- Python `s.endswith(suffix)`. -/
def pyEndsWith (s suffix : String) : Bool :=
  suffix.toList.isSuffixOf s.toList

/-- Lexicographic comparison of character lists by code point — Python's
`str <= str`. -/
def lexLe : List Char → List Char → Bool
  | [], _ => true
  | _ :: _, [] => false
  | x :: xs, y :: ys => if x = y then lexLe xs ys else decide (x < y)

/-- Python string `<=` (lexicographic by code point). -/
def pyStrLe (a b : String) : Bool := lexLe a.toList b.toList

/-- Index of the last occurrence of `c`, if any (Python `str.rfind`). -/
def lastIdxOf (c : Char) (cs : List Char) : Option Nat :=
  (cs.enum.filterMap (fun p => if p.2 = c then some p.1 else none)).getLast?

/-- `os.path.dirname` (posixpath): everything before the final `/`, with
trailing slashes stripped unless the head consists only of slashes. -/
def dirname (p : String) : String :=
  match lastIdxOf '/' p.toList with
  | none => ""
  | some k =>
    let head := p.toList.take (k + 1)
    if head.all (fun c => c = '/') then String.mk head
    else String.mk ((head.reverse.dropWhile (fun c => c = '/')).reverse)

/-- Decimal digits of `n` (with fuel to keep the recursion structural);
`natRepr` below is Python's `str(n)` for natural numbers. -/
def natReprAux : Nat → Nat → List Char → List Char
  | 0, _, acc => acc
  | fuel + 1, n, acc =>
    if n < 10 then Char.ofNat (48 + n % 10) :: acc
    else natReprAux fuel (n / 10) (Char.ofNat (48 + n % 10) :: acc)

/-- Python `str(n)` / `f"{n}"` for a natural number. -/
def natRepr (n : Nat) : String :=
  String.mk (natReprAux (n + 1) n [])

/-!  ## The normalizer: the record filter inside `get_pr_diff`  -/

/-- The operative binary-file exclusion in `get_pr_diff`:
`file['filename'].endswith(('png', 'jpg', 'jar'))` — a raw suffix match,
with no dot required before the extension. -/
def usedExcludedSuffix (name : String) : Bool :=
  pyEndsWith name "png" || pyEndsWith name "jpg" || pyEndsWith name "jar"

/-- `is_binary_file` from `main.py` (`re.search(r'\.(bin|png|jpg|jar|zip|exe|dll)$', ...)`).
This helper requires a literal dot before the extension — but it is never
called anywhere in the repository. -/
def is_binary_file (filename : String) : Bool :=
  ["bin", "png", "jpg", "jar", "zip", "exe", "dll"].any
    (fun e => pyEndsWith filename ("." ++ e))

/-- One iteration of the record loop in `get_pr_diff` (lines 48-57):
`if not file['filename'].endswith(('png','jpg','jar')) and file['patch']:`.
Subscripting a missing key raises; the `endswith` call short-circuits the
`and`, so `file['patch']` is only accessed when the suffix test fails. -/
def normStep (acc : List FileRec) (f : FileRec) : Except String (List FileRec) :=
  match f.filename with
  | none => .error "KeyError"
  | some name =>
    if usedExcludedSuffix name then .ok acc
    else
      match f.patch with
      | none => .error "KeyError"
      | some p => .ok (if p = "" then acc else acc ++ [f])

/-- Exception-raising fold (a Python `for` loop inside a `try` block). -/
def foldE (step : σ → α → Except ε σ) : σ → List α → Except ε σ
  | st, [] => .ok st
  | st, a :: as => match step st a with
    | .error e => .error e
    | .ok st' => foldE step st' as

/-- The record-filtering part of `get_pr_diff`: the loop over the response's
records, wrapped in the function's `try/except` which returns `[]` on any
exception. -/
def get_pr_diff_filter (files : List FileRec) : List FileRec :=
  match foldE normStep [] files with
  | .error _ => []
  | .ok kept => kept

/-!  ## The chunker: `chunk_files`  -/

/-- The list-comprehension filter in `chunk_files`:
`[f for f in files if f and f.get('filename')]` (drops `None` entries and
records without a truthy filename). -/
def preFilter (files : List (Option FileRec)) : List FileRec :=
  files.filterMap (fun o =>
    match o with
    | some f => if truthyStr f.filename then some f else none
    | none => none)

/-- The sort key `os.path.dirname(x['filename'])`. -/
def sortKey (f : FileRec) : String := dirname (f.filename.getD "")

/-- `sorted(..., key=lambda x: os.path.dirname(x['filename']))`: Python's
sort is stable, and a stable sort for a total preorder is unique, so the
(stable) insertion sort models it exactly. -/
def sortFiles (fs : List FileRec) : List FileRec :=
  List.insertionSort (fun a b => pyStrLe (sortKey a) (sortKey b) = true) fs

/-- `f"{file['filename']}\n{file['patch']}"`, raising on a missing key. -/
def fileContent (f : FileRec) : Except String String :=
  match f.filename, f.patch with
  | some a, some p => .ok (a ++ "\n" ++ p)
  | _, _ => .error "KeyError"

/-- The measured size of a record under tokenizer `enc`
(`len(tokenizer.encode(content))`), as a total function; it agrees with the
size computed inside `chunk_files` whenever both fields are present. -/
def measuredSize (enc : String → List Nat) (f : FileRec) : Nat :=
  (enc (f.filename.getD "" ++ "\n" ++ f.patch.getD "")).length

/-- The loop state of `chunk_files`: `chunks`, `current_chunk`,
`current_tokens`. -/
structure ChunkSt where
  chunks : List (List FileRec)
  cur : List FileRec
  curTok : Nat
deriving DecidableEq, Repr

/-- One iteration of the `for file in sorted_files` loop of `chunk_files`
(lines 84-95).  Note that the mid-loop `chunks.append(current_chunk)` is NOT
guarded by a non-emptiness test. -/
def chunkStep (enc : String → List Nat) (st : ChunkSt) (f : FileRec) :
    Except String ChunkSt :=
  match fileContent f with
  | .error e => .error e
  | .ok content =>
    let ft := (enc content).length
    if MIN_FILE_TOKENS < ft then
      let st1 :=
        if MAX_CHUNK_TOKENS < st.curTok + ft then
          { chunks := st.chunks ++ [st.cur], cur := [], curTok := 0 }
        else st
      .ok { chunks := st1.chunks, cur := st1.cur ++ [f], curTok := st1.curTok + ft }
    else .ok st

/-- `chunk_files(files, tokenizer)` from `main.py`.  The whole body after the
empty-input guard sits in a `try` whose handler returns `[]`. -/
def chunk_files (files : List (Option FileRec)) (enc : String → List Nat) :
    List (List FileRec) :=
  if files = [] then []
  else
    match foldE (chunkStep enc) ⟨[], [], 0⟩ (sortFiles (preFilter files)) with
    | .error _ => []
    | .ok st => st.chunks ++ (if st.cur = [] then [] else [st.cur])

/-!  ## The analyzer (`process_chunk`), synthesizer (`synthesize_reviews`)
and orchestrator (`main`, from line 236 on)  -/

/-- One chat message (`{"role": ..., "content": ...}`). -/
structure Msg where
  role : String
  content : String
deriving DecidableEq, Repr

/-- One chat-completion request as actually issued by the pipeline.
`temperatureTenths` is the sampling temperature in tenths (`3` stands for
the Python float literal `0.3`), so no floating-point arithmetic is needed:
the pipeline only ever passes these literals through. -/
structure Request where
  model : String
  messages : List Msg
  temperatureTenths : Nat
  maxTokens : Nat
deriving DecidableEq, Repr

/-- The `config` dict built in `main` (lines 173-208).  `temperatureTenths`
and `maxTokens` hold the parsed `INPUT_TEMPERATURE` / `INPUT_MAX_TOKENS`
environment values (again in tenths for the temperature). -/
structure Config where
  apiKey : String := ""
  baseUrl : String := ""
  modelName : String := "gpt-4"
  temperatureTenths : Nat := 7
  maxTokens : Nat := 1000
  chunkPrompt : String := ""
  summaryPrompt : String := ""
deriving DecidableEq, Repr

/-- The annotated lines built for one unit inside `process_chunk`
(lines 112-116): a header `File: {filename} ({status})`, then
`f"{i+1}: {line}"` for the non-empty patch lines only
(`... for i, line in enumerate(lines) if line`). -/
def annotatedLines (f : FileRec) : List String :=
  ("File: " ++ f.filename.getD "" ++ " (" ++ f.status ++ ")") ::
    (splitNl (f.patch.getD "")).enum.filterMap
      (fun p => if p.2 = "" then none else some (natRepr (p.1 + 1) ++ ": " ++ p.2))

/-- One unit's rendered text (`'\n'.join(annotated)`). -/
def renderUnit (f : FileRec) : String :=
  joinSep "\n" (annotatedLines f)

/-- `full_diff = '\n\n'.join(diff_text)`. -/
def fullDiff (chunk : List FileRec) : String :=
  joinSep "\n\n" (chunk.map renderUnit)

/-- The chat-completion request issued by `process_chunk` (lines 127-135):
temperature `0.3`, `max_tokens=1500`, both hard-coded. -/
def chunkRequest (cfg : Config) (fd : String) : Request :=
  { model := cfg.modelName
    messages :=
      [⟨"system", cfg.chunkPrompt⟩,
       ⟨"user", "CODE DIFF:\n" ++ fd ++ "\n\nANALYSIS REQUEST:\n" ++ cfg.chunkPrompt⟩]
    temperatureTenths := 3
    maxTokens := 1500 }

/-- `process_chunk`: returns the analysis text (or propagates the provider
exception) together with the list of requests it issued.  A chunk whose
rendered diff is blank is skipped (`return ""`) without any request.
`process_chunk` has no `try/except`: an executor failure propagates. -/
def process_chunk (cfg : Config) (exec : Request → Except String String)
    (chunk : List FileRec) : Except String String × List Request :=
  let fd := fullDiff chunk
  if isBlank fd then (.ok "", [])
  else (exec (chunkRequest cfg fd), [chunkRequest cfg fd])

/-- `asyncio.gather(*tasks)` with the default `return_exceptions=False`:
either every task succeeded and the results are returned in task order, or
the first failure is propagated to the awaiting caller. -/
def gatherE : List (Except String String) → Except String (List String)
  | [] => .ok []
  | t :: ts =>
    match t with
    | .error e => .error e
    | .ok v =>
      match gatherE ts with
      | .error e => .error e
      | .ok vs => .ok (v :: vs)

/-- The chat-completion request issued by `synthesize_reviews`
(lines 144-152): temperature `0.2`, `max_tokens=MAX_SUMMARY_TOKENS`, both
hard-coded. -/
def synthRequest (cfg : Config) (combined : String) : Request :=
  { model := cfg.modelName
    messages := [⟨"system", cfg.summaryPrompt⟩, ⟨"user", combined⟩]
    temperatureTenths := 2
    maxTokens := MAX_SUMMARY_TOKENS }

/-- `synthesize_reviews(reviews, config)`: joins the reviews with the
`\n\n---\n\n` separator and issues exactly one request — there is no
filtering and no empty-input short-circuit in this function. -/
def synthesize_reviews (cfg : Config) (exec : Request → Except String String)
    (reviews : List String) : Except String String × List Request :=
  let r := synthRequest cfg (joinSep "\n\n---\n\n" reviews)
  (exec r, [r])

/-- The user-visible end state of one run. -/
inductive Outcome
  /-- A final report was posted to the PR. -/
  | published (report : String)
  /-- The fixed "nothing to review" comment was posted. -/
  | notice
  /-- The run terminated with a logged warning/error or an uncaught
  exception; nothing was posted. -/
  | failed
deriving DecidableEq, Repr

/-- The observable result of one run: the outcome, the comments posted to
the PR, and the model requests issued. -/
structure RunResult where
  outcome : Outcome
  publishes : List String
  requests : List Request
deriving DecidableEq, Repr

/-- The "nothing to review" comment text (line 244). -/
def NOTICE_MSG : String := "🤖 AI Review: No code changes detected in this PR."

/-- `main` from line 236 onward (after configuration and PR-number
extraction): fetch result `files` in hand, chunk, fan out one
`process_chunk` task per chunk through `asyncio.gather`, filter the blank
reviews, synthesize, and post.  Every `return`-with-log path and every
uncaught exception ends the run without posting and is mapped to
`Outcome.failed`. -/
def mainRun (cfg : Config) (enc : String → List Nat)
    (exec : Request → Except String String)
    (files : List (Option FileRec)) : RunResult :=
  if files = [] then ⟨.notice, [NOTICE_MSG], []⟩
  else
    let chunks := chunk_files files enc
    if chunks = [] then ⟨.failed, [], []⟩
    else
      let tasks := chunks.map (process_chunk cfg exec)
      let reqs := (tasks.map Prod.snd).flatten
      match gatherE (tasks.map Prod.fst) with
      | .error _ => ⟨.failed, [], reqs⟩
      | .ok chunk_reviews =>
        let valid := chunk_reviews.filter (fun r => !isBlank r)
        if valid = [] then ⟨.failed, [], reqs⟩
        else
          let s := synthesize_reviews cfg exec valid
          match s.1 with
          | .error _ => ⟨.failed, [], reqs ++ s.2⟩
          | .ok report => ⟨.published report, [report], reqs ++ s.2⟩

/-!  ## Reusable facts about the chunker  -/

set_option maxRecDepth 4000

/-- A constant-size tokenizer, used to instantiate universally quantified
theorems at concrete inputs: every text measures exactly `n` tokens. -/
def constTokens (n : Nat) : String → List Nat := fun _ => List.replicate n 0

theorem constTokens_length (n : Nat) (s : String) : (constTokens n s).length = n :=
  List.length_replicate n 0

theorem measuredSize_constTokens (n : Nat) (f : FileRec) :
    measuredSize (constTokens n) f = n :=
  List.length_replicate n 0

theorem measuredSize_of_fileContent (enc : String → List Nat) (f : FileRec)
    (c : String) (h : fileContent f = Except.ok c) :
    measuredSize enc f = (enc c).length := by
  rcases hf : f.filename with _ | a <;> rcases hp : f.patch with _ | p <;>
    simp [fileContent, hf, hp] at h
  subst h
  simp [measuredSize, hf, hp]

/-- The size discipline a finished chunk satisfies: its total measured size
is within the budget, or it is a lone oversize unit. -/
def chunkOK (enc : String → List Nat) (c : List FileRec) : Prop :=
  (c.map (measuredSize enc)).sum ≤ MAX_CHUNK_TOKENS ∨
    ∃ f, c = [f] ∧ MAX_CHUNK_TOKENS < measuredSize enc f

/-- Loop invariant of `chunk_files`: all closed chunks satisfy `chunkOK`,
`current_tokens` is the measured sum of `current_chunk`, and the pending
chunk is within budget unless it is a lone oversize unit. -/
def ChunkInv (enc : String → List Nat) (st : ChunkSt) : Prop :=
  (∀ c ∈ st.chunks, chunkOK enc c) ∧
  (st.cur.map (measuredSize enc)).sum = st.curTok ∧
  (st.curTok ≤ MAX_CHUNK_TOKENS ∨
    ∃ f, st.cur = [f] ∧ MAX_CHUNK_TOKENS < measuredSize enc f)

theorem chunkInv_init (enc : String → List Nat) : ChunkInv enc ⟨[], [], 0⟩ := by
  refine ⟨by simp, by simp, Or.inl ?_⟩
  simp [MAX_CHUNK_TOKENS]

theorem chunkStep_inv (enc : String → List Nat) (st st' : ChunkSt) (f : FileRec)
    (hinv : ChunkInv enc st) (h : chunkStep enc st f = .ok st') :
    ChunkInv enc st' := by
  unfold chunkStep at h
  cases hc : fileContent f with
  | error e => rw [hc] at h; cases h
  | ok content =>
    rw [hc] at h
    simp only at h
    have hms : measuredSize enc f = (enc content).length :=
      measuredSize_of_fileContent enc f content hc
    by_cases hmin : MIN_FILE_TOKENS < (enc content).length
    · rw [if_pos hmin] at h
      by_cases hmax : MAX_CHUNK_TOKENS < st.curTok + (enc content).length
      · rw [if_pos hmax] at h
        cases h
        refine ⟨?_, ?_, ?_⟩
        · intro c hcmem
          rcases List.mem_append.mp hcmem with hmem | hmem
          · exact hinv.1 c hmem
          · have hcur : c = st.cur := by simpa using hmem
            subst hcur
            rcases hinv.2.2 with hle | hsingle
            · exact Or.inl (hinv.2.1 ▸ hle)
            · exact Or.inr hsingle
        · simp [hms]
        · rcases le_or_lt ((enc content).length) MAX_CHUNK_TOKENS with hle | hgt
          · exact Or.inl (by simpa using hle)
          · exact Or.inr ⟨f, by simp, by simpa [hms] using hgt⟩
      · rw [if_neg hmax] at h
        cases h
        refine ⟨hinv.1, ?_, ?_⟩
        · simp [hms, hinv.2.1]
        · exact Or.inl (by simpa using Nat.le_of_not_lt hmax)
    · rw [if_neg hmin] at h
      cases h
      exact hinv

theorem foldE_chunkStep_inv (enc : String → List Nat) (l : List FileRec) :
    ∀ st st', ChunkInv enc st →
      foldE (chunkStep enc) st l = .ok st' → ChunkInv enc st' := by
  induction l with
  | nil =>
    intro st st' hinv hf
    cases hf
    exact hinv
  | cons a as ih =>
    intro st st' hinv hf
    unfold foldE at hf
    cases hstep : chunkStep enc st a with
    | error e => rw [hstep] at hf; cases hf
    | ok st1 =>
      rw [hstep] at hf
      exact ih st1 st' (chunkStep_inv enc st st1 a hinv hstep) hf

/-- Claim C1: for every list of units and every tokenizer-based size
function, each chunk produced by `chunk_files` has total measured size at
most `MAX_CHUNK_TOKENS`, or else consists of exactly one unit whose own
measured size exceeds `MAX_CHUNK_TOKENS`. -/
theorem c1_chunk_size_bound (files : List (Option FileRec))
    (enc : String → List Nat) (c : List FileRec)
    (hc : c ∈ chunk_files files enc) :
    (c.map (measuredSize enc)).sum ≤ MAX_CHUNK_TOKENS ∨
      ∃ f, c = [f] ∧ MAX_CHUNK_TOKENS < measuredSize enc f := by
  unfold chunk_files at hc
  by_cases hfe : files = []
  · simp [hfe] at hc
  · rw [if_neg hfe] at hc
    cases hr : foldE (chunkStep enc) ⟨[], [], 0⟩ (sortFiles (preFilter files)) with
    | error e => rw [hr] at hc; simp at hc
    | ok st =>
      rw [hr] at hc
      have hinv : ChunkInv enc st :=
        foldE_chunkStep_inv enc (sortFiles (preFilter files)) _ st
          (chunkInv_init enc) hr
      rcases List.mem_append.mp hc with h | h
      · exact hinv.1 c h
      · by_cases hcur : st.cur = []
        · rw [if_pos hcur] at h
          cases h
        · rw [if_neg hcur] at h
          have hceq : c = st.cur := by simpa using h
          subst hceq
          rcases hinv.2.2 with hle | hsingle
          · exact Or.inl (hinv.2.1 ▸ hle)
          · exact Or.inr hsingle

/-- A well-formed single-file input used to instantiate several theorems. -/
def wfA : FileRec := { filename := some "a.py", patch := some "p" }

/-- Witness for C1 at a concrete input: one 201-token file forms one chunk,
and the bound holds for it. -/
theorem c1_chunk_size_bound_witness :
    [wfA] ∈ chunk_files [some wfA] (constTokens 201) ∧
      ((([wfA] : List FileRec).map (measuredSize (constTokens 201))).sum ≤
          MAX_CHUNK_TOKENS ∨
        ∃ f, ([wfA] : List FileRec) = [f] ∧
          MAX_CHUNK_TOKENS < measuredSize (constTokens 201) f) :=
  ⟨by decide, c1_chunk_size_bound [some wfA] (constTokens 201) [wfA] (by decide)⟩

/-- A single file whose content measures more than `MAX_CHUNK_TOKENS`. -/
def fBig : FileRec := { filename := some "big.py", patch := some "x" }

/-- Claim C2 (refuted — code bug): when the first unit considered already
exceeds `MAX_CHUNK_TOKENS` on its own, the mid-loop
`chunks.append(current_chunk)` in `chunk_files` runs with an *empty*
pending chunk (the append is not guarded by a non-emptiness test, unlike
the final one), so the output starts with an empty chunk. -/
theorem c2_empty_chunk_emitted :
    chunk_files [some fBig] (constTokens 6001) = [[], [fBig]] := by
  simp [chunk_files, sortFiles, preFilter, foldE, chunkStep, fileContent,
    List.insertionSort, truthyStr, fBig, constTokens_length,
    MIN_FILE_TOKENS, MAX_CHUNK_TOKENS]

/-!  ## The chunker is a partition of the size-filtered input (C3)  -/

theorem preFilter_map_some (units : List FileRec) :
    preFilter (units.map some) = units.filter (fun u => truthyStr u.filename) := by
  induction units with
  | nil => rfl
  | cons u us ih =>
    simp only [preFilter, List.map_cons, List.filterMap_cons] at *
    by_cases h : truthyStr u.filename
    · simp [h, List.filter_cons, ih]
    · simp [h, List.filter_cons, ih]

theorem fileContent_isOk (f : FileRec) (h1 : truthyStr f.filename = true)
    (h2 : f.patch.isSome = true) : ∃ c, fileContent f = Except.ok c := by
  rcases hf : f.filename with _ | a
  · rw [hf] at h1; simp [truthyStr] at h1
  · rcases hp : f.patch with _ | p
    · rw [hp] at h2; simp at h2
    · exact ⟨a ++ "\n" ++ p, by simp [fileContent, hf, hp]⟩

theorem foldE_chunkStep_join (enc : String → List Nat) (l : List FileRec)
    (hok : ∀ f ∈ l, ∃ c, fileContent f = Except.ok c) :
    ∀ st, ∃ st', foldE (chunkStep enc) st l = .ok st' ∧
      st'.chunks.flatten ++ st'.cur =
        st.chunks.flatten ++ st.cur ++
          l.filter (fun f => MIN_FILE_TOKENS < measuredSize enc f) := by
  induction l with
  | nil =>
    intro st
    exact ⟨st, rfl, by simp⟩
  | cons f fs ih =>
    intro st
    obtain ⟨c, hc⟩ := hok f (List.mem_cons_self f fs)
    have hms : measuredSize enc f = (enc c).length :=
      measuredSize_of_fileContent enc f c hc
    have hok' : ∀ g ∈ fs, ∃ c, fileContent g = Except.ok c :=
      fun g hg => hok g (List.mem_cons_of_mem f hg)
    unfold foldE chunkStep
    rw [hc]
    simp only
    by_cases hmin : MIN_FILE_TOKENS < (enc c).length
    · rw [if_pos hmin]
      by_cases hmax : MAX_CHUNK_TOKENS < st.curTok + (enc c).length
      · rw [if_pos hmax]
        obtain ⟨st', hfold, hjoin⟩ :=
          ih hok' ⟨st.chunks ++ [st.cur], [] ++ [f], 0 + (enc c).length⟩
        refine ⟨st', hfold, ?_⟩
        rw [hjoin]
        simp [List.filter_cons, hms, hmin]
      · rw [if_neg hmax]
        obtain ⟨st', hfold, hjoin⟩ :=
          ih hok' ⟨st.chunks, st.cur ++ [f], st.curTok + (enc c).length⟩
        refine ⟨st', hfold, ?_⟩
        rw [hjoin]
        simp [List.filter_cons, hms, hmin]
    · rw [if_neg hmin]
      obtain ⟨st', hfold, hjoin⟩ := ih hok' st
      refine ⟨st', hfold, ?_⟩
      rw [hjoin]
      simp [List.filter_cons, hms, hmin]

/-- Claim C3: for a list of well-formed units (truthy filename, patch field
present), the concatenation of all chunks produced by `chunk_files` is a
permutation of — i.e. contains exactly once each of — the input units whose
measured size strictly exceeds `MIN_FILE_TOKENS`. -/
theorem c3_partition (units : List FileRec) (enc : String → List Nat)
    (hwf : ∀ u ∈ units, truthyStr u.filename = true ∧ u.patch.isSome = true) :
    ((chunk_files (units.map some) enc).flatten).Perm
      (units.filter (fun u => MIN_FILE_TOKENS < measuredSize enc u)) := by
  by_cases hu : units = []
  · subst hu; simp [chunk_files]
  · unfold chunk_files
    rw [if_neg (by simpa using hu)]
    have hpre : preFilter (units.map some) = units := by
      rw [preFilter_map_some]
      exact List.filter_eq_self.mpr (fun u hu => (hwf u hu).1)
    have hperm : (sortFiles (preFilter (units.map some))).Perm units := by
      rw [hpre]
      exact List.perm_insertionSort _ units
    have hok : ∀ f ∈ sortFiles (preFilter (units.map some)),
        ∃ c, fileContent f = Except.ok c := by
      intro f hf
      have hfu : f ∈ units := hperm.mem_iff.mp hf
      exact fileContent_isOk f (hwf f hfu).1 (hwf f hfu).2
    obtain ⟨st', hfold, hjoin⟩ :=
      foldE_chunkStep_join enc (sortFiles (preFilter (units.map some))) hok
        ⟨[], [], 0⟩
    rw [hfold]
    simp only at hjoin
    have hout : (st'.chunks ++ (if st'.cur = [] then [] else [st'.cur])).flatten =
        st'.chunks.flatten ++ st'.cur := by
      by_cases hcur : st'.cur = []
      · simp [hcur]
      · simp [hcur]
    rw [hout, hjoin]
    simpa using hperm.filter (fun u => MIN_FILE_TOKENS < measuredSize enc u)

/-- Witness for C3 at a concrete input: a single well-formed 201-token file;
the flattened chunk list is a permutation of the size-filtered input. -/
theorem c3_partition_witness :
    (∀ u ∈ [wfA], truthyStr u.filename = true ∧ u.patch.isSome = true) ∧
      ((chunk_files ([wfA].map some) (constTokens 201)).flatten).Perm
        ([wfA].filter (fun u => MIN_FILE_TOKENS < measuredSize (constTokens 201) u)) :=
  ⟨by decide, c3_partition [wfA] (constTokens 201) (by decide)⟩

/-!  ## The normalizer's record filter (C8)  -/

/-- Modelled from the claim's words: the suffix after the final dot of the
path (`none` when the path contains no dot). -/
def extAfterDot (name : String) : Option String :=
  if '.' ∈ name.toList then
    some (String.mk ((name.toList.reverse.takeWhile (fun c => c ≠ '.')).reverse))
  else none

/-- The normalizer as the claim describes it: keep exactly the records that
have a path and non-empty patch text and whose suffix after the final dot is
not an excluded binary extension (case-sensitively). -/
def specNormalize (files : List FileRec) : List FileRec :=
  files.filter (fun f =>
    truthyStr f.filename && truthyStr f.patch &&
      !(match extAfterDot (f.filename.getD "") with
        | some e => ["png", "jpg", "jar"].contains e
        | none => false))

/-- A record whose path ends in the literal characters `png` although its
extension after the final dot is `mpng`. -/
def exMpng : FileRec := { filename := some "data.mpng", patch := some "x" }

/-- Claim C8 counterexample: `get_pr_diff` uses a raw
`endswith(('png','jpg','jar'))` with no dot required, so `data.mpng` —
whose suffix after the final dot is `mpng`, not an excluded extension — is
dropped by the code although the claim says it is kept. -/
theorem c8_counterexample :
    get_pr_diff_filter [exMpng] = [] ∧ specNormalize [exMpng] = [exMpng] := by
  decide

theorem foldE_normStep (files : List FileRec)
    (hwf : ∀ f ∈ files, f.filename.isSome ∧ f.patch.isSome) :
    ∀ acc, foldE normStep acc files =
      .ok (acc ++ files.filter (fun f =>
        !usedExcludedSuffix (f.filename.getD "") && f.patch.getD "" ≠ "")) := by
  induction files with
  | nil => intro acc; simp [foldE]
  | cons f fs ih =>
    intro acc
    have hwfs : ∀ g ∈ fs, g.filename.isSome ∧ g.patch.isSome :=
      fun g hg => hwf g (List.mem_cons_of_mem f hg)
    obtain ⟨hn, hp⟩ := hwf f (List.mem_cons_self f fs)
    rcases hfn : f.filename with _ | name
    · rw [hfn] at hn; cases hn
    · rcases hfp : f.patch with _ | p
      · rw [hfp] at hp; cases hp
      · by_cases hexc : usedExcludedSuffix name
        · have hstep : normStep acc f = .ok acc := by
            simp [normStep, hfn, hexc]
          unfold foldE
          rw [hstep]
          show foldE normStep acc fs = _
          rw [ih hwfs acc]
          simp [List.filter_cons, hfn, hexc]
        · by_cases hpe : p = ""
          · have hstep : normStep acc f = .ok acc := by
              simp [normStep, hfn, hfp, hexc, hpe]
            unfold foldE
            rw [hstep]
            show foldE normStep acc fs = _
            rw [ih hwfs acc]
            simp [List.filter_cons, hfn, hfp, hexc, hpe]
          · have hstep : normStep acc f = .ok (acc ++ [f]) := by
              simp [normStep, hfn, hfp, hexc, hpe]
            unfold foldE
            rw [hstep]
            show foldE normStep (acc ++ [f]) fs = _
            rw [ih hwfs (acc ++ [f])]
            simp [List.filter_cons, hfn, hfp, hexc, hpe]

theorem normStep_error (f : FileRec) (name : String)
    (hn : f.filename = some name) (hexc : usedExcludedSuffix name = false)
    (hp : f.patch = none) (acc : List FileRec) :
    normStep acc f = .error "KeyError" := by
  simp [normStep, hn, hexc, hp]

theorem foldE_normStep_error (files : List FileRec) (f : FileRec)
    (hf : f ∈ files) (herr : ∀ acc, normStep acc f = .error "KeyError") :
    ∀ acc, ∃ e, foldE normStep acc files = .error e := by
  induction files with
  | nil => cases hf
  | cons a as ih =>
    intro acc
    rcases List.mem_cons.mp hf with rfl | hmem
    · refine ⟨"KeyError", ?_⟩
      unfold foldE
      rw [herr acc]
    · unfold foldE
      cases hstep : normStep acc a with
      | error e => exact ⟨e, rfl⟩
      | ok acc' => exact ih hmem acc'

/-- Claim C8 as amended, in two halves.  On records that have both fields,
the record filter of `get_pr_diff` keeps exactly the records with non-empty
patch text whose path does not *end with the raw characters* `png`, `jpg`
or `jar` (no dot required — the dot-anchored `is_binary_file` helper exists
in the source but is never called).  However, the kept-set description only
holds on such inputs: a record that lacks the patch field and whose path
does not carry one of those raw suffixes (GitHub omits `patch` for binary
files, e.g. a `.zip`) reaches `file['patch']`, and the resulting `KeyError`
hits the function-level handler, which returns the empty list — discarding
every record the first half says is kept. -/
theorem c8_normalizer_operative :
    (∀ files : List FileRec,
      (∀ f ∈ files, f.filename.isSome ∧ f.patch.isSome) →
      get_pr_diff_filter files = files.filter (fun f =>
          !usedExcludedSuffix (f.filename.getD "") && f.patch.getD "" ≠ "") ∧
        ∀ f, f ∈ get_pr_diff_filter files ↔
          f ∈ files ∧ usedExcludedSuffix (f.filename.getD "") = false ∧
            f.patch.getD "" ≠ "") ∧
    (∀ (files : List FileRec) (f : FileRec) (name : String),
      f ∈ files → f.filename = some name → usedExcludedSuffix name = false →
      f.patch = none → get_pr_diff_filter files = []) := by
  constructor
  · intro files hwf
    have heq : get_pr_diff_filter files = files.filter (fun f =>
        !usedExcludedSuffix (f.filename.getD "") && f.patch.getD "" ≠ "") := by
      unfold get_pr_diff_filter
      rw [foldE_normStep files hwf []]
      simp
    refine ⟨heq, fun f => ?_⟩
    rw [heq, List.mem_filter]
    simp [and_assoc]
  · intro files f name hf hn hexc hp
    obtain ⟨e, he⟩ :=
      foldE_normStep_error files f hf (normStep_error f name hn hexc hp) []
    unfold get_pr_diff_filter
    rw [he]

/-- A binary-file record as GitHub reports it: no `patch` field, and a path
whose raw suffix is not in the excluded set. -/
def fZip : FileRec := { filename := some "a.zip", patch := none }

/-- Witness for C8 (amended) at concrete inputs: first half — a kept source
file, a dropped real `.png`, a dropped empty-patch record, and the dropped
`data.mpng`; second half — one patchless `.zip` record empties the whole
result, dropping the well-formed record too. -/
theorem c8_normalizer_operative_witness :
    get_pr_diff_filter [wfA, exMpng, { filename := some "img.png", patch := some "x" },
        { filename := some "e.py", patch := some "" }] = [wfA] ∧
      get_pr_diff_filter [fZip, wfA] = [] :=
  ⟨by
      rw [(c8_normalizer_operative.1 _ (by decide)).1]
      decide,
    c8_normalizer_operative.2 [fZip, wfA] fZip "a.zip" (by decide) rfl
      (by decide) rfl⟩

/-!  ## `chunk_files` on malformed records (C5)  -/

/-- A record with a filename but no patch field: its subscript access inside
`chunk_files` raises `KeyError`. -/
def fNoPatch : FileRec := { filename := some "b.py", patch := none }

/-- Claim C5 counterexample: a record with a filename but no patch field is
not merely skipped — the exception handler of `chunk_files` returns `[]`,
discarding the chunks of the remaining well-formed records as well. -/
theorem c5_counterexample :
    chunk_files [some wfA, some fNoPatch] (constTokens 201) = [] ∧
      chunk_files [some wfA] (constTokens 201) = [[wfA]] := by
  decide

theorem preFilter_cons (o : Option FileRec) (l : List (Option FileRec)) :
    preFilter (o :: l) =
      (match o with
        | some f => if truthyStr f.filename then some f else none
        | none => none).toList ++ preFilter l := by
  unfold preFilter
  rw [List.filterMap_cons]
  rcases o with _ | f
  · rfl
  · by_cases ht : truthyStr f.filename <;> simp [ht]

theorem preFilter_skip (files₁ files₂ : List (Option FileRec)) (o : Option FileRec)
    (ho : o = none ∨ ∃ f, o = some f ∧ truthyStr f.filename = false) :
    preFilter (files₁ ++ o :: files₂) = preFilter (files₁ ++ files₂) := by
  induction files₁ with
  | nil =>
    rw [List.nil_append, List.nil_append, preFilter_cons]
    rcases ho with h | ⟨f, hf, ht⟩
    · subst h; rfl
    · subst hf; simp [ht]
  | cons a as ih =>
    rw [List.cons_append, List.cons_append, preFilter_cons, preFilter_cons, ih]

theorem mem_preFilter_of (f : FileRec) (files : List (Option FileRec))
    (hmem : some f ∈ files) (ht : truthyStr f.filename = true) :
    f ∈ preFilter files := by
  unfold preFilter
  rw [List.mem_filterMap]
  exact ⟨some f, hmem, by simp [ht]⟩

theorem foldE_chunkStep_error (enc : String → List Nat) (l : List FileRec)
    (f : FileRec) (hf : f ∈ l)
    (herr : fileContent f = Except.error "KeyError") :
    ∀ st, ∃ e, foldE (chunkStep enc) st l = .error e := by
  induction l with
  | nil => cases hf
  | cons a as ih =>
    intro st
    rcases List.mem_cons.mp hf with rfl | hmem
    · refine ⟨"KeyError", ?_⟩
      unfold foldE chunkStep
      rw [herr]
    · unfold foldE
      cases hstep : chunkStep enc st a with
      | error e => exact ⟨e, rfl⟩
      | ok st1 => exact ih hmem st1

/-- Claim C5 as amended: `chunk_files` never raises, and a record that is
null or lacks a truthy filename is skipped without affecting the rest; but
a record having a filename and no patch field trips the exception handler,
which returns the empty list — discarding the chunks of all the well-formed
records instead of skipping only the offender. -/
theorem c5_failsoft_scope :
    (∀ (files₁ files₂ : List (Option FileRec)) (enc : String → List Nat)
        (o : Option FileRec),
        (o = none ∨ ∃ f, o = some f ∧ truthyStr f.filename = false) →
        chunk_files (files₁ ++ o :: files₂) enc =
          chunk_files (files₁ ++ files₂) enc) ∧
    (∀ (files : List (Option FileRec)) (enc : String → List Nat) (f : FileRec),
        some f ∈ files → truthyStr f.filename = true → f.patch = none →
        chunk_files files enc = []) := by
  constructor
  · intro files₁ files₂ enc o ho
    have hpre := preFilter_skip files₁ files₂ o ho
    unfold chunk_files
    rw [if_neg (by simp)]
    by_cases h2 : files₁ ++ files₂ = []
    · rw [if_pos h2, hpre, h2]
      rfl
    · rw [if_neg h2, hpre]
  · intro files enc f hmem ht hp
    have herr : fileContent f = Except.error "KeyError" := by
      rcases hf : f.filename with _ | a
      · rw [hf] at ht; simp [truthyStr] at ht
      · simp [fileContent, hf, hp]
    have hfsort : f ∈ sortFiles (preFilter files) :=
      (List.perm_insertionSort _ _).mem_iff.mpr (mem_preFilter_of f files hmem ht)
    obtain ⟨e, he⟩ :=
      foldE_chunkStep_error enc (sortFiles (preFilter files)) f hfsort herr
        ⟨[], [], 0⟩
    unfold chunk_files
    rw [if_neg (List.ne_nil_of_mem hmem), he]

/-- Witness for C5 (amended) at concrete inputs: a null record is skipped;
a filename-without-patch record empties the whole result. -/
theorem c5_failsoft_scope_witness :
    chunk_files [some wfA, none] (constTokens 201) =
        chunk_files [some wfA] (constTokens 201) ∧
      chunk_files [some wfA, some fNoPatch] (constTokens 201) = [] :=
  ⟨c5_failsoft_scope.1 [some wfA] [] (constTokens 201) none (Or.inl rfl),
    c5_failsoft_scope.2 [some wfA, some fNoPatch] (constTokens 201) fNoPatch
      (by decide) (by decide) rfl⟩

/-!  ## Renderer line structure (C9): splitting the joined text recovers
exactly the annotated lines  -/

theorem splitNlChars_ne_nil : ∀ cs : List Char, splitNlChars cs ≠ []
  | [] => by simp [splitNlChars]
  | c :: cs => by
    unfold splitNlChars
    by_cases h : c = '\n'
    · simp [h]
    · rw [if_neg h]
      cases hs : splitNlChars cs <;> simp

theorem splitNlChars_cons_nl (cs : List Char) :
    splitNlChars ('\n' :: cs) = [] :: splitNlChars cs := by
  simp [splitNlChars]

theorem splitNlChars_cons (c : Char) (cs : List Char) (h : c ≠ '\n') :
    splitNlChars (c :: cs) =
      (c :: (splitNlChars cs).headI) :: (splitNlChars cs).tail := by
  cases hs : splitNlChars cs with
  | nil => exact absurd hs (splitNlChars_ne_nil cs)
  | cons l ls =>
    simp only [splitNlChars, hs, if_neg h]
    simp

theorem splitNlChars_append_newline (xs ys : List Char) :
    splitNlChars (xs ++ '\n' :: ys) = splitNlChars xs ++ splitNlChars ys := by
  induction xs with
  | nil => simp [splitNlChars_cons_nl, splitNlChars]
  | cons c cs ih =>
    by_cases h : c = '\n'
    · subst h
      rw [List.cons_append, splitNlChars_cons_nl, splitNlChars_cons_nl, ih,
        List.cons_append]
    · rw [List.cons_append, splitNlChars_cons c _ h, splitNlChars_cons c cs h, ih]
      cases hs : splitNlChars cs with
      | nil => exact absurd hs (splitNlChars_ne_nil cs)
      | cons l ls => simp

theorem splitNlChars_of_noNl : ∀ cs : List Char, '\n' ∉ cs → splitNlChars cs = [cs] := by
  intro cs
  induction cs with
  | nil => intro _; rfl
  | cons c cs ih =>
    intro h
    have hc : c ≠ '\n' := fun he => h (he ▸ List.mem_cons_self c cs)
    rw [splitNlChars_cons c cs hc, ih (fun hm => h (List.mem_cons_of_mem c hm))]
    simp

theorem noNl_of_mem_splitNlChars : ∀ cs l, l ∈ splitNlChars cs → '\n' ∉ l := by
  intro cs
  induction cs with
  | nil =>
    intro l hl
    simp [splitNlChars] at hl
    subst hl
    simp
  | cons c cs ih =>
    intro l hl
    by_cases h : c = '\n'
    · subst h
      rw [splitNlChars_cons_nl] at hl
      rcases List.mem_cons.mp hl with rfl | hm
      · simp
      · exact ih l hm
    · rw [splitNlChars_cons c cs h] at hl
      rcases List.mem_cons.mp hl with rfl | hm
      · intro hmem
        rcases List.mem_cons.mp hmem with he | hm2
        · exact h he.symm
        · have hhead : (splitNlChars cs).headI ∈ splitNlChars cs := by
            cases hs : splitNlChars cs with
            | nil => exact absurd hs (splitNlChars_ne_nil cs)
            | cons a as => simp
          exact ih _ hhead hm2
      · exact ih l (List.mem_of_mem_tail hm)

theorem toList_append (a b : String) : (a ++ b).toList = a.toList ++ b.toList :=
  String.data_append a b

theorem mk_toList (s : String) : String.mk s.toList = s := by
  cases s
  rfl

theorem splitNl_append_newline (a b : String) :
    splitNl (a ++ "\n" ++ b) = splitNl a ++ splitNl b := by
  unfold splitNl
  have h : (a ++ "\n" ++ b).toList = a.toList ++ '\n' :: b.toList := by
    rw [toList_append, toList_append]
    simp
  rw [h, splitNlChars_append_newline, List.map_append]

theorem splitNl_append_blank (a b : String) :
    splitNl (a ++ "\n\n" ++ b) = splitNl a ++ "" :: splitNl b := by
  unfold splitNl
  have h : (a ++ "\n\n" ++ b).toList = a.toList ++ '\n' :: ('\n' :: b.toList) := by
    rw [toList_append, toList_append]
    simp
  rw [h, splitNlChars_append_newline, splitNlChars_cons_nl, List.map_append,
    List.map_cons]

theorem splitNl_of_noNl (s : String) (h : '\n' ∉ s.toList) : splitNl s = [s] := by
  unfold splitNl
  rw [splitNlChars_of_noNl s.toList h, List.map_cons, List.map_nil, mk_toList]

theorem splitNl_joinSep_nl (xs : List String) (hne : xs ≠ [])
    (h : ∀ x ∈ xs, '\n' ∉ x.toList) : splitNl (joinSep "\n" xs) = xs := by
  induction xs with
  | nil => cases hne rfl
  | cons x xs ih =>
    cases xs with
    | nil =>
      show splitNl x = [x]
      exact splitNl_of_noNl x (h x (List.mem_cons_self x []))
    | cons y ys =>
      have hj : joinSep "\n" (x :: y :: ys) = x ++ "\n" ++ joinSep "\n" (y :: ys) := rfl
      rw [hj, splitNl_append_newline,
        ih (by simp) (fun z hz => h z (List.mem_cons_of_mem x hz)),
        splitNl_of_noNl x (h x (List.mem_cons_self x (y :: ys)))]
      simp

theorem intercalate_cons_cons (sep : List α) (x y : List α) (ys : List (List α)) :
    List.intercalate sep (x :: y :: ys) =
      x ++ sep ++ List.intercalate sep (y :: ys) := by
  simp [List.intercalate, List.intersperse]

theorem splitNl_joinSep_blank (us : List String) (hne : us ≠ []) :
    splitNl (joinSep "\n\n" us) = List.intercalate [""] (us.map splitNl) := by
  induction us with
  | nil => cases hne rfl
  | cons u us ih =>
    cases us with
    | nil =>
      show splitNl u = List.intercalate [""] [splitNl u]
      simp [List.intercalate]
    | cons v vs =>
      have hj : joinSep "\n\n" (u :: v :: vs) = u ++ "\n\n" ++ joinSep "\n\n" (v :: vs) := rfl
      rw [hj, splitNl_append_blank, ih (by simp)]
      simp [intercalate_cons_cons]

theorem natReprAux_noNl : ∀ (fuel n : Nat) (acc : List Char),
    (∀ c ∈ acc, c ≠ '\n') → ∀ c ∈ natReprAux fuel n acc, c ≠ '\n' := by
  intro fuel
  induction fuel with
  | zero => intro n acc hacc c hc; exact hacc c hc
  | succ fu ih =>
    intro n acc hacc c hc
    have hdig : ∀ k, k < 10 → Char.ofNat (48 + k) ≠ '\n' := by decide
    have hd : Char.ofNat (48 + n % 10) ≠ '\n' :=
      hdig (n % 10) (Nat.mod_lt n (by norm_num))
    have hacc' : ∀ c ∈ Char.ofNat (48 + n % 10) :: acc, c ≠ '\n' := by
      intro c' hc'
      rcases List.mem_cons.mp hc' with rfl | hm
      · exact hd
      · exact hacc c' hm
    unfold natReprAux at hc
    by_cases hn : n < 10
    · rw [if_pos hn] at hc
      exact hacc' c hc
    · rw [if_neg hn] at hc
      exact ih (n / 10) _ hacc' c hc

theorem natRepr_noNl (n : Nat) : '\n' ∉ (natRepr n).toList := by
  intro hmem
  exact natReprAux_noNl (n + 1) n [] (by simp) '\n' hmem rfl

theorem noNl_append (a b : String) (ha : '\n' ∉ a.toList) (hb : '\n' ∉ b.toList) :
    '\n' ∉ (a ++ b).toList := by
  rw [toList_append]
  intro hmem
  rcases List.mem_append.mp hmem with h | h
  · exact ha h
  · exact hb h

theorem noNl_of_mem_splitNl (s x : String) (hx : x ∈ splitNl s) :
    '\n' ∉ x.toList := by
  unfold splitNl at hx
  rcases List.mem_map.mp hx with ⟨l, hl, rfl⟩
  exact noNl_of_mem_splitNlChars s.toList l hl

theorem snd_mem_of_mem_enumFrom {α : Type} :
    ∀ (l : List α) (n : Nat) (p : Nat × α), p ∈ l.enumFrom n → p.2 ∈ l := by
  intro l
  induction l with
  | nil => intro n p hp; cases hp
  | cons a as ih =>
    intro n p hp
    rcases List.mem_cons.mp hp with rfl | hm
    · exact List.mem_cons_self a as
    · exact List.mem_cons_of_mem a (ih (n + 1) p hm)

theorem snd_mem_of_mem_enum {α : Type} (l : List α) (p : Nat × α)
    (hp : p ∈ l.enum) : p.2 ∈ l :=
  snd_mem_of_mem_enumFrom l 0 p hp

theorem splitNl_renderUnit (f : FileRec)
    (h1 : '\n' ∉ (f.filename.getD "").toList) (h2 : '\n' ∉ f.status.toList) :
    splitNl (renderUnit f) = annotatedLines f := by
  apply splitNl_joinSep_nl
  · simp [annotatedLines]
  · intro x hx
    unfold annotatedLines at hx
    rcases List.mem_cons.mp hx with rfl | hm
    · refine noNl_append _ _ (noNl_append _ _ (noNl_append _ _ (noNl_append _ _ ?_ h1) ?_) h2) ?_
      · decide
      · decide
      · decide
    · rcases List.mem_filterMap.mp hm with ⟨p, hp, hpx⟩
      by_cases hpe : p.2 = ""
      · rw [if_pos hpe] at hpx; cases hpx
      · rw [if_neg hpe] at hpx
        cases hpx
        refine noNl_append _ _ (noNl_append _ _ (natRepr_noNl (p.1 + 1)) ?_) ?_
        · decide
        · exact noNl_of_mem_splitNl _ _ (snd_mem_of_mem_enum _ p hp)

/-- Claim C9 as amended: for a non-empty chunk of units whose filenames and
statuses contain no newline, the line structure of the full rendered diff is
exactly: for each unit, the header `File: {filename} ({status})` followed by
that unit's *non-empty* patch lines, each prefixed with its 1-based index in
the unit's own patch split (numbering restarts for each unit and skipped
empty lines still consume indices), with one empty line between consecutive
units. -/
theorem c9_rendered_lines (chunk : List FileRec) (hne : chunk ≠ [])
    (h : ∀ f ∈ chunk, '\n' ∉ (f.filename.getD "").toList ∧ '\n' ∉ f.status.toList) :
    splitNl (fullDiff chunk) = List.intercalate [""] (chunk.map annotatedLines) := by
  unfold fullDiff
  rw [splitNl_joinSep_blank (chunk.map renderUnit) (by simpa using hne),
    List.map_map]
  congr 1
  apply List.map_congr_left
  intro f hf
  exact splitNl_renderUnit f (h f hf).1 (h f hf).2

/-- A unit whose patch contains an empty line (`"a\n\nb"`). -/
def exEmptyLine : FileRec := { filename := some "f.py", patch := some "a\n\nb" }

/-- Rendering described by the claim, modelled from its words: every patch
line — including empty ones — prefixed with its 1-based local index. -/
def specRenderUnit (f : FileRec) : String :=
  joinSep "\n"
    (("File: " ++ f.filename.getD "" ++ " (" ++ f.status ++ ")") ::
      (splitNl (f.patch.getD "")).enum.map
        (fun p => natRepr (p.1 + 1) ++ ": " ++ p.2))

/-- Claim C9 counterexample: the comprehension
`[f"{i+1}: {line}" for i, line in enumerate(lines) if line]` drops empty
patch lines (while still consuming their indices), so for the patch
`"a\n\nb"` the rendered unit lacks the `2: ` line the claim requires. -/
theorem c9_counterexample :
    renderUnit exEmptyLine = "File: f.py (modified)\n1: a\n3: b" ∧
      specRenderUnit exEmptyLine = "File: f.py (modified)\n1: a\n2: \n3: b" ∧
      renderUnit exEmptyLine ≠ specRenderUnit exEmptyLine := by
  decide

/-- Witness for C9 (amended) at a concrete two-unit chunk. -/
theorem c9_rendered_lines_witness :
    ([exEmptyLine, wfA] : List FileRec) ≠ [] ∧
      splitNl (fullDiff [exEmptyLine, wfA]) =
        List.intercalate [""] ([exEmptyLine, wfA].map annotatedLines) :=
  ⟨by decide, c9_rendered_lines [exEmptyLine, wfA] (by decide) (by decide)⟩

/-!  ## Orchestrator case analysis shared by the analyzer/synthesizer/
orchestrator claims  -/

/-- All chunk-analysis requests a run issues (every task runs and issues its
request even when a sibling fails). -/
def chunkReqsOf (cfg : Config) (enc : String → List Nat)
    (exec : Request → Except String String)
    (files : List (Option FileRec)) : List Request :=
  (((chunk_files files enc).map (process_chunk cfg exec)).map Prod.snd).flatten

/-- `valid_reviews = [review for review in chunk_reviews if review and review.strip()]`. -/
def validOf (reviews : List String) : List String :=
  reviews.filter (fun r => !isBlank r)

/-- The single synthesis request `main` would issue for the given non-blank
reviews. -/
def synthReqOf (cfg : Config) (reviews : List String) : Request :=
  synthRequest cfg (joinSep "\n\n---\n\n" reviews)

theorem process_chunk_requests (cfg : Config)
    (exec : Request → Except String String) (ch : List FileRec) (q : Request)
    (hq : q ∈ (process_chunk cfg exec ch).2) :
    q = chunkRequest cfg (fullDiff ch) := by
  simp only [process_chunk] at hq
  by_cases hb : isBlank (fullDiff ch)
  · simp [hb] at hq
  · simp [hb] at hq
    exact hq

theorem process_chunk_blank (cfg : Config) (exec : Request → Except String String)
    (ch : List FileRec)
    (hall : ∀ q, ∃ s, exec q = .ok s ∧ isBlank s = true) :
    ∃ s, (process_chunk cfg exec ch).1 = .ok s ∧ isBlank s = true := by
  simp only [process_chunk]
  by_cases hb : isBlank (fullDiff ch)
  · exact ⟨"", by simp [hb], by decide⟩
  · obtain ⟨s, hs, hbl⟩ := hall (chunkRequest cfg (fullDiff ch))
    exact ⟨s, by simp [hb, hs], hbl⟩

theorem gatherE_error_of_mem (l : List (Except String String)) (e : String)
    (hmem : Except.error e ∈ l) : ∃ e', gatherE l = .error e' := by
  induction l with
  | nil => cases hmem
  | cons t ts ih =>
    rcases List.mem_cons.mp hmem with rfl | hm
    · exact ⟨e, rfl⟩
    · cases t with
      | error e'' => exact ⟨e'', rfl⟩
      | ok v =>
        obtain ⟨e', he'⟩ := ih hm
        exact ⟨e', by simp [gatherE, he']⟩

theorem gatherE_all_blank (l : List (Except String String))
    (h : ∀ t ∈ l, ∃ s, t = .ok s ∧ isBlank s = true) :
    ∃ vs, gatherE l = .ok vs ∧ ∀ v ∈ vs, isBlank v = true := by
  induction l with
  | nil => exact ⟨[], rfl, by simp⟩
  | cons t ts ih =>
    obtain ⟨s, rfl, hs⟩ := h t (List.mem_cons_self t ts)
    obtain ⟨vs, hvs, hall⟩ := ih (fun t' ht' => h t' (List.mem_cons_of_mem _ ht'))
    refine ⟨s :: vs, by simp [gatherE, hvs], ?_⟩
    intro v hv
    rcases List.mem_cons.mp hv with rfl | hm
    · exact hs
    · exact hall v hm

theorem mem_chunkReqsOf (cfg : Config) (enc : String → List Nat)
    (exec : Request → Except String String) (files : List (Option FileRec))
    (q : Request) (hq : q ∈ chunkReqsOf cfg enc exec files) :
    ∃ ch ∈ chunk_files files enc, q = chunkRequest cfg (fullDiff ch) := by
  unfold chunkReqsOf at hq
  rcases List.mem_flatten.mp hq with ⟨l, hl, hql⟩
  rcases List.mem_map.mp hl with ⟨task, htask, rfl⟩
  rcases List.mem_map.mp htask with ⟨ch, hch, rfl⟩
  exact ⟨ch, hch, process_chunk_requests cfg exec ch q hql⟩

/-- Exhaustive case analysis of one run: exactly one of the six control-flow
paths of `main` (lines 236-272) applies, and each determines the returned
`RunResult` completely. -/
theorem mainRun_cases (cfg : Config) (enc : String → List Nat)
    (exec : Request → Except String String) (files : List (Option FileRec)) :
    (files = [] ∧ mainRun cfg enc exec files = ⟨.notice, [NOTICE_MSG], []⟩) ∨
    (files ≠ [] ∧ chunk_files files enc = [] ∧
      mainRun cfg enc exec files = ⟨.failed, [], []⟩) ∨
    (files ≠ [] ∧ chunk_files files enc ≠ [] ∧ ∃ e,
      gatherE (((chunk_files files enc).map (process_chunk cfg exec)).map Prod.fst) =
        .error e ∧
      mainRun cfg enc exec files = ⟨.failed, [], chunkReqsOf cfg enc exec files⟩) ∨
    (files ≠ [] ∧ chunk_files files enc ≠ [] ∧ ∃ reviews,
      gatherE (((chunk_files files enc).map (process_chunk cfg exec)).map Prod.fst) =
        .ok reviews ∧ validOf reviews = [] ∧
      mainRun cfg enc exec files = ⟨.failed, [], chunkReqsOf cfg enc exec files⟩) ∨
    (files ≠ [] ∧ chunk_files files enc ≠ [] ∧ ∃ reviews e,
      gatherE (((chunk_files files enc).map (process_chunk cfg exec)).map Prod.fst) =
        .ok reviews ∧ validOf reviews ≠ [] ∧
      exec (synthReqOf cfg (validOf reviews)) = .error e ∧
      mainRun cfg enc exec files =
        ⟨.failed, [], chunkReqsOf cfg enc exec files ++
          [synthReqOf cfg (validOf reviews)]⟩) ∨
    (files ≠ [] ∧ chunk_files files enc ≠ [] ∧ ∃ reviews rep,
      gatherE (((chunk_files files enc).map (process_chunk cfg exec)).map Prod.fst) =
        .ok reviews ∧ validOf reviews ≠ [] ∧
      exec (synthReqOf cfg (validOf reviews)) = .ok rep ∧
      mainRun cfg enc exec files =
        ⟨.published rep, [rep], chunkReqsOf cfg enc exec files ++
          [synthReqOf cfg (validOf reviews)]⟩) := by
  by_cases hf : files = []
  · refine Or.inl ⟨hf, ?_⟩
    simp only [mainRun]
    rw [if_pos hf]
  · by_cases hch : chunk_files files enc = []
    · refine Or.inr (Or.inl ⟨hf, hch, ?_⟩)
      simp only [mainRun]
      rw [if_neg hf, if_pos hch]
    · cases hg : gatherE
        (((chunk_files files enc).map (process_chunk cfg exec)).map Prod.fst) with
      | error e =>
        refine Or.inr (Or.inr (Or.inl ⟨hf, hch, e, rfl, ?_⟩))
        simp only [mainRun]
        rw [if_neg hf, if_neg hch, hg]
        rfl
      | ok reviews =>
        by_cases hv : validOf reviews = []
        · refine Or.inr (Or.inr (Or.inr (Or.inl ⟨hf, hch, reviews, rfl, hv, ?_⟩)))
          unfold validOf at hv
          simp only [mainRun]
          rw [if_neg hf, if_neg hch, hg]
          simp only []
          rw [if_pos hv]
          rfl
        · cases hs : exec (synthReqOf cfg (validOf reviews)) with
          | error e =>
            refine Or.inr (Or.inr (Or.inr (Or.inr (Or.inl
              ⟨hf, hch, reviews, e, rfl, hv, hs, ?_⟩))))
            unfold validOf at hv
            unfold synthReqOf validOf at hs
            simp only [mainRun, synthesize_reviews]
            rw [if_neg hf, if_neg hch, hg]
            simp only []
            rw [if_neg hv, hs]
            rfl
          | ok rep =>
            refine Or.inr (Or.inr (Or.inr (Or.inr (Or.inr
              ⟨hf, hch, reviews, rep, rfl, hv, hs, ?_⟩))))
            unfold validOf at hv
            unfold synthReqOf validOf at hs
            simp only [mainRun, synthesize_reviews]
            rw [if_neg hf, if_neg hch, hg]
            simp only []
            rw [if_neg hv, hs]
            rfl

/-- A request never issued by the pipeline carries temperature `0.2` unless
it is the synthesis request; this classifies every request a run issues. -/
theorem mainRun_requests_classified (cfg : Config) (enc : String → List Nat)
    (exec : Request → Except String String) (files : List (Option FileRec))
    (q : Request) (hq : q ∈ (mainRun cfg enc exec files).requests) :
    (q.temperatureTenths = 3 ∧ q.maxTokens = 1500) ∨
      (q.temperatureTenths = 2 ∧ q.maxTokens = MAX_SUMMARY_TOKENS) := by
  rcases mainRun_cases cfg enc exec files with
    ⟨hf, hm⟩ | ⟨hf, hcf, hm⟩ | ⟨hf, hcf, e, hg, hm⟩ | ⟨hf, hcf, rv, hg, hv, hm⟩ |
    ⟨hf, hcf, rv, e, hg, hv, hs, hm⟩ | ⟨hf, hcf, rv, rep, hg, hv, hs, hm⟩ <;>
      rw [hm] at hq
  · cases hq
  · cases hq
  · obtain ⟨ch, _, rfl⟩ := mem_chunkReqsOf cfg enc exec files q hq
    exact Or.inl ⟨rfl, rfl⟩
  · obtain ⟨ch, _, rfl⟩ := mem_chunkReqsOf cfg enc exec files q hq
    exact Or.inl ⟨rfl, rfl⟩
  · rcases List.mem_append.mp hq with hql | hqr
    · obtain ⟨ch, _, rfl⟩ := mem_chunkReqsOf cfg enc exec files q hql
      exact Or.inl ⟨rfl, rfl⟩
    · have hqe : q = synthReqOf cfg (validOf rv) := by simpa using hqr
      subst hqe
      exact Or.inr ⟨rfl, rfl⟩
  · rcases List.mem_append.mp hq with hql | hqr
    · obtain ⟨ch, _, rfl⟩ := mem_chunkReqsOf cfg enc exec files q hql
      exact Or.inl ⟨rfl, rfl⟩
    · have hqe : q = synthReqOf cfg (validOf rv) := by simpa using hqr
      subst hqe
      exact Or.inr ⟨rfl, rfl⟩

/-- Claim C7: every run ends in exactly one of three user-visible outcomes —
a published final report (posted as the single PR comment), the published
"nothing to review" notice, or a failure with nothing posted at all — and
when the synthesis request (the only temperature-0.2 request) raises, the
run fails and nothing is published. -/
theorem c7_run_outcomes (cfg : Config) (enc : String → List Nat)
    (exec : Request → Except String String) (files : List (Option FileRec)) :
    (((mainRun cfg enc exec files).outcome = .notice ∧
        (mainRun cfg enc exec files).publishes = [NOTICE_MSG]) ∨
      (∃ rep, (mainRun cfg enc exec files).outcome = .published rep ∧
        (mainRun cfg enc exec files).publishes = [rep]) ∨
      ((mainRun cfg enc exec files).outcome = .failed ∧
        (mainRun cfg enc exec files).publishes = [])) ∧
    (files ≠ [] → (∀ q, q.temperatureTenths = 2 → ∃ e, exec q = .error e) →
      (mainRun cfg enc exec files).outcome = .failed ∧
        (mainRun cfg enc exec files).publishes = []) := by
  rcases mainRun_cases cfg enc exec files with
    ⟨hf, hm⟩ | ⟨hf, hcf, hm⟩ | ⟨hf, hcf, e, hg, hm⟩ | ⟨hf, hcf, rv, hg, hv, hm⟩ |
    ⟨hf, hcf, rv, e, hg, hv, hs, hm⟩ | ⟨hf, hcf, rv, rep, hg, hv, hs, hm⟩
  · exact ⟨Or.inl (by rw [hm]; exact ⟨rfl, rfl⟩), fun hne _ => absurd hf hne⟩
  · exact ⟨Or.inr (Or.inr (by rw [hm]; exact ⟨rfl, rfl⟩)),
      fun _ _ => by rw [hm]; exact ⟨rfl, rfl⟩⟩
  · exact ⟨Or.inr (Or.inr (by rw [hm]; exact ⟨rfl, rfl⟩)),
      fun _ _ => by rw [hm]; exact ⟨rfl, rfl⟩⟩
  · exact ⟨Or.inr (Or.inr (by rw [hm]; exact ⟨rfl, rfl⟩)),
      fun _ _ => by rw [hm]; exact ⟨rfl, rfl⟩⟩
  · exact ⟨Or.inr (Or.inr (by rw [hm]; exact ⟨rfl, rfl⟩)),
      fun _ _ => by rw [hm]; exact ⟨rfl, rfl⟩⟩
  · refine ⟨Or.inr (Or.inl ⟨rep, by rw [hm], by rw [hm]⟩), ?_⟩
    intro _ hsf
    obtain ⟨e, he⟩ := hsf (synthReqOf cfg (validOf rv)) rfl
    rw [hs] at he
    cases he

/-!  ## Fixed generation parameters (C10)  -/

theorem chunkRequest_congr (c1 c2 : Config) (h1 : c1.modelName = c2.modelName)
    (h2 : c1.chunkPrompt = c2.chunkPrompt) : chunkRequest c1 = chunkRequest c2 := by
  funext fd
  simp [chunkRequest, h1, h2]

theorem synthRequest_congr (c1 c2 : Config) (h1 : c1.modelName = c2.modelName)
    (h3 : c1.summaryPrompt = c2.summaryPrompt) :
    synthRequest c1 = synthRequest c2 := by
  funext s
  simp [synthRequest, h1, h3]

theorem process_chunk_congr (c1 c2 : Config)
    (exec : Request → Except String String) (h1 : c1.modelName = c2.modelName)
    (h2 : c1.chunkPrompt = c2.chunkPrompt) :
    process_chunk c1 exec = process_chunk c2 exec := by
  funext ch
  simp only [process_chunk, chunkRequest_congr c1 c2 h1 h2]

theorem synthesize_reviews_congr (c1 c2 : Config)
    (exec : Request → Except String String) (h1 : c1.modelName = c2.modelName)
    (h3 : c1.summaryPrompt = c2.summaryPrompt) :
    synthesize_reviews c1 exec = synthesize_reviews c2 exec := by
  funext rs
  simp only [synthesize_reviews, synthRequest_congr c1 c2 h1 h3]

theorem mainRun_congr (c1 c2 : Config) (enc : String → List Nat)
    (exec : Request → Except String String) (files : List (Option FileRec))
    (h1 : c1.modelName = c2.modelName) (h2 : c1.chunkPrompt = c2.chunkPrompt)
    (h3 : c1.summaryPrompt = c2.summaryPrompt) :
    mainRun c1 enc exec files = mainRun c2 enc exec files := by
  unfold mainRun
  rw [process_chunk_congr c1 c2 exec h1 h2, synthesize_reviews_congr c1 c2 exec h1 h3]

/-- Claim C10: the generation parameters actually sent are the hard-coded
constants (temperature `0.3` and `max_tokens` 1500 for every chunk
analysis; temperature `0.2` and `MAX_SUMMARY_TOKENS` for synthesis); the
parsed `INPUT_TEMPERATURE` / `INPUT_MAX_TOKENS` configuration fields are
never read, so two runs whose configurations differ only in those fields
issue exactly the same requests. -/
theorem c10_generation_params_fixed (c1 c2 : Config) (enc : String → List Nat)
    (exec : Request → Except String String) (files : List (Option FileRec))
    (hkey : c1.apiKey = c2.apiKey) (hurl : c1.baseUrl = c2.baseUrl)
    (hmodel : c1.modelName = c2.modelName)
    (hcp : c1.chunkPrompt = c2.chunkPrompt)
    (hsp : c1.summaryPrompt = c2.summaryPrompt) :
    (mainRun c1 enc exec files).requests = (mainRun c2 enc exec files).requests ∧
      ∀ q ∈ (mainRun c1 enc exec files).requests,
        (q.temperatureTenths = 3 ∧ q.maxTokens = 1500) ∨
        (q.temperatureTenths = 2 ∧ q.maxTokens = MAX_SUMMARY_TOKENS) := by
  constructor
  · rw [mainRun_congr c1 c2 enc exec files hmodel hcp hsp]
  · exact mainRun_requests_classified c1 enc exec files

/-!  ## Concrete runs used to instantiate the orchestrator theorems  -/

/-- A concrete configuration (prompts and model name shortened; the
temperature and max-token fields are the parsed-but-unused environment
values). -/
def cfgW : Config :=
  { apiKey := "k", baseUrl := "u", modelName := "m", temperatureTenths := 7,
    maxTokens := 1000, chunkPrompt := "CP", summaryPrompt := "SP" }

/-- The same configuration with different `INPUT_TEMPERATURE` /
`INPUT_MAX_TOKENS` values. -/
def cfgW2 : Config := { cfgW with temperatureTenths := 9, maxTokens := 42 }

/-- An executor whose every response succeeds with a non-blank review. -/
def execOk : Request → Except String String := fun _ => .ok "REVIEW"

/-- An executor whose every response is blank. -/
def execBlank : Request → Except String String := fun _ => .ok ""

/-- An executor that fails exactly on synthesis (temperature-0.2) requests. -/
def execSynthFail : Request → Except String String :=
  fun q => if q.temperatureTenths = 2 then .error "boom" else .ok "REVIEW"

def f1x : FileRec := { filename := some "a/x.py", patch := some "p1" }

def f2x : FileRec := { filename := some "b/y.py", patch := some "p2" }

def files4 : List (Option FileRec) := [some f1x, some f2x]

/-- An executor that fails exactly on the first chunk's analysis request. -/
def exec4 : Request → Except String String :=
  fun q => if q = chunkRequest cfgW (fullDiff [f1x]) then .error "boom" else .ok "REVIEW"

theorem chunk_files_files4 :
    chunk_files files4 (constTokens 3500) = [[f1x], [f2x]] := by
  simp [chunk_files, sortFiles, preFilter, foldE, chunkStep, fileContent,
    List.insertionSort, List.orderedInsert, truthyStr, f1x, f2x, files4,
    constTokens_length, MIN_FILE_TOKENS, MAX_CHUNK_TOKENS, sortKey, dirname,
    lastIdxOf, pyStrLe, lexLe]

theorem process_chunk_f1x :
    process_chunk cfgW exec4 [f1x] =
      (.error "boom", [chunkRequest cfgW (fullDiff [f1x])]) := rfl

theorem process_chunk_f2x :
    process_chunk cfgW exec4 [f2x] =
      (.ok "REVIEW", [chunkRequest cfgW (fullDiff [f2x])]) := rfl

/-- Witness for C10 at a concrete input: two configurations differing only
in the parsed temperature/max-token fields issue identical requests. -/
theorem c10_generation_params_fixed_witness :
    (cfgW.apiKey = cfgW2.apiKey ∧ cfgW.baseUrl = cfgW2.baseUrl ∧
      cfgW.modelName = cfgW2.modelName ∧ cfgW.chunkPrompt = cfgW2.chunkPrompt ∧
      cfgW.summaryPrompt = cfgW2.summaryPrompt) ∧
    (mainRun cfgW (constTokens 201) execOk [some wfA]).requests =
      (mainRun cfgW2 (constTokens 201) execOk [some wfA]).requests :=
  ⟨⟨rfl, rfl, rfl, rfl, rfl⟩,
    (c10_generation_params_fixed cfgW cfgW2 (constTokens 201) execOk [some wfA]
      rfl rfl rfl rfl rfl).1⟩

/-- Witness for C7 at a concrete input: the chunk analyses succeed but the
synthesis request fails, so the run fails and publishes nothing. -/
theorem c7_run_outcomes_witness :
    ([some wfA] : List (Option FileRec)) ≠ [] ∧
      (mainRun cfgW (constTokens 201) execSynthFail [some wfA]).outcome = .failed ∧
      (mainRun cfgW (constTokens 201) execSynthFail [some wfA]).publishes = [] :=
  ⟨by decide,
    (c7_run_outcomes cfgW (constTokens 201) execSynthFail [some wfA]).2
      (by decide)
      (fun q hq => ⟨"boom", by simp [execSynthFail, hq]⟩)⟩

/-!  ## The synthesizer performs no filtering (C6)  -/

/-- Claim C6 counterexample: calling `synthesize_reviews` with the empty
result list still issues exactly one model request (whose user content is
the empty string), and returns that request's response rather than the
absent marker without a request. -/
theorem c6_counterexample :
    (synthesize_reviews cfgW execOk []).2 = [synthRequest cfgW ""] ∧
      (synthesize_reviews cfgW execOk []).1 = .ok "REVIEW" :=
  ⟨rfl, rfl⟩

/-- Claim C6 as amended: `synthesize_reviews` itself performs no filtering
and always issues exactly one request, even on an empty or all-blank input;
the filtering to non-blank entries and the return-without-request behavior
live in `main`, which never issues a synthesis (temperature-0.2) request
when every analysis response is blank. -/
theorem c6_synthesis_filtering (cfg : Config)
    (exec : Request → Except String String) (reviews : List String)
    (enc : String → List Nat) (files : List (Option FileRec)) :
    (synthesize_reviews cfg exec reviews).2 =
        [synthRequest cfg (joinSep "\n\n---\n\n" reviews)] ∧
      ((∀ q, ∃ s, exec q = .ok s ∧ isBlank s = true) →
        ∀ q ∈ (mainRun cfg enc exec files).requests, q.temperatureTenths ≠ 2) := by
  refine ⟨rfl, ?_⟩
  intro hall q hq
  have hblank : ∀ t ∈ ((chunk_files files enc).map
      (process_chunk cfg exec)).map Prod.fst,
      ∃ s, t = .ok s ∧ isBlank s = true := by
    intro t ht
    rcases List.mem_map.mp ht with ⟨task, htask, rfl⟩
    rcases List.mem_map.mp htask with ⟨ch, _, rfl⟩
    exact process_chunk_blank cfg exec ch hall
  obtain ⟨vs, hvs, hvsb⟩ := gatherE_all_blank _ hblank
  rcases mainRun_cases cfg enc exec files with
    ⟨hf, hm⟩ | ⟨hf, hcf, hm⟩ | ⟨hf, hcf, e, hg, hm⟩ | ⟨hf, hcf, rv, hg, hv, hm⟩ |
    ⟨hf, hcf, rv, e, hg, hv, hs, hm⟩ | ⟨hf, hcf, rv, rep, hg, hv, hs, hm⟩
  · rw [hm] at hq; cases hq
  · rw [hm] at hq; cases hq
  · rw [hm] at hq
    obtain ⟨ch, _, rfl⟩ := mem_chunkReqsOf cfg enc exec files q hq
    simp [chunkRequest]
  · rw [hm] at hq
    obtain ⟨ch, _, rfl⟩ := mem_chunkReqsOf cfg enc exec files q hq
    simp [chunkRequest]
  · exfalso
    rw [hvs] at hg
    injection hg with hg'
    subst hg'
    refine hv ?_
    unfold validOf
    rw [List.filter_eq_nil_iff]
    intro r hr
    simp [hvsb r hr]
  · exfalso
    rw [hvs] at hg
    injection hg with hg'
    subst hg'
    refine hv ?_
    unfold validOf
    rw [List.filter_eq_nil_iff]
    intro r hr
    simp [hvsb r hr]

/-- Witness for C6 (amended) at a concrete input: with blank analysis
responses, the run issues no temperature-0.2 request. -/
theorem c6_synthesis_filtering_witness :
    (synthesize_reviews cfgW execBlank []).2 =
        [synthRequest cfgW (joinSep "\n\n---\n\n" [])] ∧
      ∀ q ∈ (mainRun cfgW (constTokens 201) execBlank [some wfA]).requests,
        q.temperatureTenths ≠ 2 :=
  ⟨(c6_synthesis_filtering cfgW execBlank [] (constTokens 201) [some wfA]).1,
    (c6_synthesis_filtering cfgW execBlank [] (constTokens 201) [some wfA]).2
      (fun _ => ⟨"", rfl, rfl⟩)⟩

/-!  ## One failing chunk request aborts the run (C4)  -/

/-- Claim C4 counterexample: with two chunks and a provider failure on the
first chunk's request only, `asyncio.gather` (default
`return_exceptions=False`) propagates the exception instead of returning
two results with one absence marker: the run fails, publishes nothing, and
synthesis never runs. -/
theorem c4_counterexample :
    gatherE (((chunk_files files4 (constTokens 3500)).map
        (process_chunk cfgW exec4)).map Prod.fst) = .error "boom" ∧
      mainRun cfgW (constTokens 3500) exec4 files4 =
        ⟨.failed, [], [chunkRequest cfgW (fullDiff [f1x]),
          chunkRequest cfgW (fullDiff [f2x])]⟩ := by
  have hg : gatherE (((chunk_files files4 (constTokens 3500)).map
      (process_chunk cfgW exec4)).map Prod.fst) = .error "boom" := by
    rw [chunk_files_files4]
    rfl
  have hreqs : chunkReqsOf cfgW (constTokens 3500) exec4 files4 =
      [chunkRequest cfgW (fullDiff [f1x]), chunkRequest cfgW (fullDiff [f2x])] := by
    unfold chunkReqsOf
    rw [chunk_files_files4]
    rfl
  refine ⟨hg, ?_⟩
  rcases mainRun_cases cfgW (constTokens 3500) exec4 files4 with
    ⟨hf, hm⟩ | ⟨hf, hcf, hm⟩ | ⟨hf, hcf, e2, hg2, hm⟩ | ⟨hf, hcf, rv, hg2, hv, hm⟩ |
    ⟨hf, hcf, rv, e2, hg2, hv, hs, hm⟩ | ⟨hf, hcf, rv, rep, hg2, hv, hs, hm⟩
  · exact absurd hf (by simp [files4])
  · rw [chunk_files_files4] at hcf
    cases hcf
  · rw [hm, hreqs]
  · rw [hg2] at hg
    cases hg
  · rw [hg2] at hg
    cases hg
  · rw [hg2] at hg
    cases hg

/-- Claim C4 as amended: if the analysis request of any chunk fails, the
exception propagates through `asyncio.gather` and out of `main`: the run
ends failed, nothing is published, only the chunk requests were issued and
synthesis (the temperature-0.2 request) never runs. -/
theorem c4_failure_aborts (cfg : Config) (enc : String → List Nat)
    (exec : Request → Except String String) (files : List (Option FileRec))
    (ch : List FileRec) (e : String) (hch : ch ∈ chunk_files files enc)
    (he : (process_chunk cfg exec ch).1 = .error e) :
    mainRun cfg enc exec files =
        ⟨.failed, [], chunkReqsOf cfg enc exec files⟩ ∧
      ∀ q ∈ (mainRun cfg enc exec files).requests, q.temperatureTenths ≠ 2 := by
  have hmem : Except.error e ∈
      ((chunk_files files enc).map (process_chunk cfg exec)).map Prod.fst := by
    rw [← he]
    exact List.mem_map_of_mem Prod.fst
      (List.mem_map_of_mem (process_chunk cfg exec) hch)
  obtain ⟨e', hg'⟩ := gatherE_error_of_mem _ e hmem
  rcases mainRun_cases cfg enc exec files with
    ⟨hf, hm⟩ | ⟨hf, hcf, hm⟩ | ⟨hf, hcf, e2, hg, hm⟩ | ⟨hf, hcf, rv, hg, hv, hm⟩ |
    ⟨hf, hcf, rv, e2, hg, hv, hs, hm⟩ | ⟨hf, hcf, rv, rep, hg, hv, hs, hm⟩
  · subst hf
    rw [show chunk_files [] enc = [] from rfl] at hch
    cases hch
  · rw [hcf] at hch
    cases hch
  · refine ⟨hm, ?_⟩
    intro q hq
    rw [hm] at hq
    obtain ⟨ch', _, rfl⟩ := mem_chunkReqsOf cfg enc exec files q hq
    simp [chunkRequest]
  · rw [hg] at hg'
    cases hg'
  · rw [hg] at hg'
    cases hg'
  · rw [hg] at hg'
    cases hg'

/-- Witness for C4 (amended) at the concrete two-chunk input. -/
theorem c4_failure_aborts_witness :
    [f1x] ∈ chunk_files files4 (constTokens 3500) ∧
      mainRun cfgW (constTokens 3500) exec4 files4 =
        ⟨.failed, [], chunkReqsOf cfgW (constTokens 3500) exec4 files4⟩ :=
  ⟨by rw [chunk_files_files4]; simp,
    (c4_failure_aborts cfgW (constTokens 3500) exec4 files4 [f1x] "boom"
      (by rw [chunk_files_files4]; simp)
      (by rw [process_chunk_f1x])).1⟩

end PRReview
